import Mathlib

/-!
Shallow embedding of `src/crypto/Ed25519PrivateKey.ts`.

Bytes are `Nat` values below 256, buffers are `List Nat`, and strings are Lean
`String`s (all the strings involved are ASCII, where JavaScript's UTF-16
`String.length` agrees with the character count).  Fallible operations return
`Except KeyError _`, mirroring the thrown `BadKeyError`, the plain `Error` of
`derive`, and the `KeyMismatchError` of the keystore path.  Trusted platform
primitives (ed25519 public-key derivation, HMAC-SHA512, PBKDF2) are abstracted
as a parameter structure `CryptoPrims` carrying only their interface contracts
(output lengths, bytes below 256).  Repository helpers that are outside the
excerpt (`util.ts`, `Keystore.ts`) are modelled from the spec, as marked on
each definition.
-/

namespace HederaEd25519

/-- Modelled from the spec: numeric value of a hexadecimal digit character for
the `decodeHex` codec utility of `util.ts` (ASCII codes 48..57 are the digits,
97..102 are lowercase `a`..`f`, 65..70 are uppercase `A`..`F`); the decoder is
a plain hexadecimal decoder and, like `parseInt(s, 16)`, accepts both letter
cases. Any other character is rejected. -/
def hexDigitVal (c : Char) : Option Nat :=
  let n := c.toNat
  if 48 ≤ n ∧ n ≤ 57 then some (n - 48)
  else if 97 ≤ n ∧ n ≤ 102 then some (n - 87)
  else if 65 ≤ n ∧ n ≤ 70 then some (n - 55)
  else none

/-- Modelled from the spec: hexadecimal decoding of a character list, two
characters per byte, failing on a non-hex character or an odd length. -/
def decodeHexChars : List Char → Option (List Nat)
  | [] => some []
  | [_] => none
  | c1 :: c2 :: rest =>
    match hexDigitVal c1, hexDigitVal c2, decodeHexChars rest with
    | some h, some l, some bs => some ((h * 16 + l) :: bs)
    | _, _, _ => none

/-- Modelled from the spec: `decodeHex` from the codec utilities of `util.ts`
(not part of the excerpt). -/
def decodeHex (s : String) : Option (List Nat) := decodeHexChars s.data

/-- Lowercase hexadecimal digit character for a value below 16 (48 is ASCII
`0`, 87 + 10 is ASCII `a`). -/
def hexDigitChar (n : Nat) : Char := Char.ofNat (if n < 10 then 48 + n else 87 + n)

/-- Modelled from the spec: hexadecimal encoding of a byte list, lowercase,
two characters per byte. -/
def encodeHexChars : List Nat → List Char
  | [] => []
  | b :: rest => hexDigitChar (b / 16) :: hexDigitChar (b % 16) :: encodeHexChars rest

/-- Modelled from the spec: `encodeHex` from the codec utilities of `util.ts`
(not part of the excerpt). -/
def encodeHex (bs : List Nat) : String := ⟨encodeHexChars bs⟩

/-- ASCII bytes of a string, used for the fixed HMAC key `"ed25519 seed"`. -/
def asciiBytes (s : String) : List Nat := s.data.map Char.toNat

/-- Big-endian 4-byte encoding of an unsigned 32-bit value. -/
def beBytes4 (n : Nat) : List Nat :=
  [n / 2 ^ 24 % 256, n / 2 ^ 16 % 256, n / 2 ^ 8 % 256, n % 256]

/-- Character count of a string; on the ASCII strings involved this agrees
with JavaScript's `String.prototype.length`. -/
def strLen (s : String) : Nat := s.data.length

/-- Mirrors JavaScript's `s.slice(n)` on ASCII strings. -/
def sliceFrom (s : String) (n : Nat) : String := ⟨s.data.drop n⟩

/-- Mirrors JavaScript's `s.startsWith(p)` on ASCII strings. -/
def startsWithStr (s p : String) : Bool := p.data.isPrefixOf s.data

/-- Modelled from the spec: the fixed 32-character algorithm-identifier
constant exported by `util.ts` (not part of the excerpt) and prepended by
`toString`. -/
def ed25519PrivKeyPfx : String := "302e020100300506032b657004220420"

/-- The trusted platform primitives consumed by the module, specified only at
their interface boundary (spec §6): ed25519 public-key derivation from a
32-byte seed, HMAC-SHA512, and PBKDF2 with a digest-name parameter. -/
structure CryptoPrims where
  edPub : List Nat → List Nat
  hmacSha512 : List Nat → List Nat → List Nat
  pbkdf2Fn : String → String → Nat → Nat → String → List Nat
  edPub_len : ∀ s, (edPub s).length = 32
  edPub_byte : ∀ s, ∀ b ∈ edPub s, b < 256
  hmac_len : ∀ k m, (hmacSha512 k m).length = 64
  hmac_byte : ∀ k m, ∀ b ∈ hmacSha512 k m, b < 256
  pbkdf2_len : ∀ pw salt it n dg, (pbkdf2Fn pw salt it n dg).length = n
  pbkdf2_byte : ∀ pw salt it n dg, ∀ b ∈ pbkdf2Fn pw salt it n dg, b < 256

/-- The error conditions surfaced to callers: `BadKeyError` for malformed key
material, the plain `Error` thrown by `derive` on a key without a chain code,
and `KeyMismatchError` from the keystore path. -/
inductive KeyError
  | badKey
  | derivationUnsupported
  | keyMismatch
deriving DecidableEq

/-- External collaborator: the public-key type, constructible from 32 raw
bytes; no further structure is assumed by this core. -/
structure Ed25519PublicKey where
  bytes : List Nat
deriving DecidableEq

/-- `Ed25519PublicKey.fromBytes` at the interface boundary: wraps the raw
bytes. -/
def Ed25519PublicKey.fromBytes (bs : List Nat) : Ed25519PublicKey := ⟨bs⟩

/-- The `RawKeyPair` shape passed to the private constructor. -/
structure RawKeyPair where
  privateKey : List Nat
  publicKey : List Nat
deriving DecidableEq

/-- External collaborator: a mnemonic, exposing one operation — render to the
canonical space-joined phrase string. -/
structure Mnemonic where
  words : List String
deriving DecidableEq

/-- Canonical phrase string of a mnemonic. -/
def Mnemonic.render (m : Mnemonic) : String := String.intercalate " " m.words

/-- `nacl.sign.secretKeyLength`: 64. -/
def naclSignSecretKeyLength : Nat := 64

/-- The private-key entity: `_keyData` (the 64-byte nacl secret key, seed
followed by public-key bytes), the cached public key, the lazily cached raw
string form `_asStringRaw`, and the optional `_chainCode`. -/
structure Ed25519PrivateKey where
  keyData : List Nat
  publicKey : Ed25519PublicKey
  asStringRaw : Option String
  chainCode : Option (List Nat)
deriving DecidableEq

/-- The private constructor: rejects a private key whose length differs from
`nacl.sign.secretKeyLength` (64) with `BadKeyError`, otherwise stores the key
data and builds the public key from the supplied bytes. -/
def Ed25519PrivateKey.construct (kp : RawKeyPair) : Except KeyError Ed25519PrivateKey :=
  if kp.privateKey.length ≠ naclSignSecretKeyLength then .error .badKey
  else .ok ⟨kp.privateKey, Ed25519PublicKey.fromBytes kp.publicKey, none, none⟩

/-- `fromBytes`: 32 bytes go through `nacl.sign.keyPair.fromSeed` (secret key
is seed concatenated with the derived public key), 64 bytes through
`nacl.sign.keyPair.fromSecretKey` (public key is the trailing 32 bytes, taken
on trust), and any other length throws `BadKeyError`. -/
def Ed25519PrivateKey.fromBytes (P : CryptoPrims) (bytes : List Nat) :
    Except KeyError Ed25519PrivateKey :=
  if bytes.length = 32 then
    Ed25519PrivateKey.construct ⟨bytes ++ P.edPub bytes, P.edPub bytes⟩
  else if bytes.length = 64 then
    Ed25519PrivateKey.construct ⟨bytes, bytes.drop 32⟩
  else .error .badKey

/-- `fromString`: hex strings of length 64 or 128 are decoded and passed to
`fromBytes`, with the input string cached as the raw string form; a string of
length 96 must start with the 32-character algorithm-identifier constant,
which is stripped before decoding, and the stripped remainder is cached; any
other length throws `BadKeyError`. -/
def Ed25519PrivateKey.fromString (P : CryptoPrims) (keyStr : String) :
    Except KeyError Ed25519PrivateKey :=
  if strLen keyStr = 64 ∨ strLen keyStr = 128 then
    match decodeHex keyStr with
    | some bs =>
      (Ed25519PrivateKey.fromBytes P bs).map fun k => { k with asStringRaw := some keyStr }
    | none => .error .badKey
  else if strLen keyStr = 96 then
    if startsWithStr keyStr ed25519PrivKeyPfx then
      let rawStr := sliceFrom keyStr 32
      match decodeHex rawStr with
      | some bs =>
        (Ed25519PrivateKey.fromBytes P bs).map fun k => { k with asStringRaw := some rawStr }
      | none => .error .badKey
    else .error .badKey
  else .error .badKey

/-- Modelled from the spec: `deriveChildKey` from `util.ts` (not part of the
excerpt) — hardened ed25519 HD derivation: combine the index with the
hardening offset 2^31, compute HMAC-SHA512 keyed with the chain code over the
byte 0 followed by the parent key bytes and the big-endian 32-bit hardened
index, and split the digest into the child key (left 32 bytes) and the child
chain code (right 32 bytes). -/
def deriveChildKey (P : CryptoPrims) (parentKey chainCode : List Nat) (index : Nat) :
    List Nat × List Nat :=
  let hardened := (index + 2 ^ 31) % 2 ^ 32
  let digest := P.hmacSha512 chainCode (0 :: (parentKey ++ beBytes4 hardened))
  (digest.take 32, digest.drop 32)

/-- `fromMnemonic`: render the phrase, PBKDF2 (sha512, 2048 iterations, salt
`"mnemonic" + passphrase`, 64 bytes), HMAC-SHA512 keyed with the ASCII string
`"ed25519 seed"`, split the digest, then fold the child-derivation step over
the fixed indices 44, 3030, 0, 0; the resulting key bytes go through
`fromBytes` and the final chain code is attached. -/
def Ed25519PrivateKey.fromMnemonic (P : CryptoPrims) (mnemonic : Mnemonic)
    (passphrase : String) : Except KeyError Ed25519PrivateKey :=
  let input := mnemonic.render
  let salt := "mnemonic" ++ passphrase
  let seed := P.pbkdf2Fn input salt 2048 64 "sha512"
  let digest := P.hmacSha512 (asciiBytes "ed25519 seed") seed
  let keyBytes := digest.take 32
  let chainCode := digest.drop 32
  let kc := [44, 3030, 0, 0].foldl (fun s i => deriveChildKey P s.1 s.2 i) (keyBytes, chainCode)
  (Ed25519PrivateKey.fromBytes P kc.1).map fun k => { k with chainCode := some kc.2 }

/-- The keystore blob at the interface boundary of spec §4.4 / §6: the
authenticated-encryption layer is abstracted as the stored seed together with
the authentication data bound to the passphrase, since decoding requires the
exact passphrase and yields either the original seed or an authentication
failure. -/
structure KeystoreBlob where
  seed : List Nat
  auth : String
deriving DecidableEq

/-- Modelled from the spec: `createKeystore` from `Keystore.ts` (not part of
the excerpt) — encrypts the 32-byte seed (never a longer internal
representation) under the passphrase and returns the opaque blob. -/
def createKeystore (keyBytes : List Nat) (passphrase : String) : KeystoreBlob :=
  ⟨keyBytes.take 32, passphrase⟩

/-- Modelled from the spec: `loadKeystore` from `Keystore.ts` (not part of the
excerpt) — verifies the passphrase-bound authentication data before any key
bytes are reconstructed, failing with `KeyMismatchError` on a mismatch;
on success it rebuilds the raw key pair from the recovered seed via the
ed25519 key-pair primitive. -/
def loadKeystore (P : CryptoPrims) (blob : KeystoreBlob) (passphrase : String) :
    Except KeyError RawKeyPair :=
  if blob.auth = passphrase then
    .ok ⟨blob.seed ++ P.edPub blob.seed, P.edPub blob.seed⟩
  else .error .keyMismatch

/-- `fromKeystore`: feeds the result of `loadKeystore` to the private
constructor. -/
def Ed25519PrivateKey.fromKeystore (P : CryptoPrims) (keystore : KeystoreBlob)
    (passphrase : String) : Except KeyError Ed25519PrivateKey :=
  (loadKeystore P keystore passphrase).bind Ed25519PrivateKey.construct

/-- `generate`: feeds 32 entropy bytes from the secure random source to
`fromBytes`; the entropy is passed explicitly here. -/
def Ed25519PrivateKey.generate (P : CryptoPrims) (entropy : List Nat) :
    Except KeyError Ed25519PrivateKey :=
  Ed25519PrivateKey.fromBytes P entropy

/-- `derive`: throws the unsupported-operation error when no chain code is
present; otherwise performs one child-derivation step on the first 32 bytes of
the key data and the chain code, and attaches the new chain code to the new
key. -/
def Ed25519PrivateKey.derive (P : CryptoPrims) (k : Ed25519PrivateKey) (index : Nat) :
    Except KeyError Ed25519PrivateKey :=
  match k.chainCode with
  | none => .error .derivationUnsupported
  | some cc =>
    let r := deriveChildKey P (k.keyData.take 32) cc index
    (Ed25519PrivateKey.fromBytes P r.1).map fun k2 => { k2 with chainCode := some r.2 }

/-- `supportsDerivation`: the chain code is present. -/
def Ed25519PrivateKey.supportsDerivation (k : Ed25519PrivateKey) : Bool :=
  k.chainCode.isSome

/-- `toBytes`: a copy of the first 32 bytes (the seed) of the key data. -/
def Ed25519PrivateKey.toBytes (k : Ed25519PrivateKey) : List Nat :=
  k.keyData.take 32

/-- `toString(raw)`: lazily fills the cached raw string form with the
hexadecimal encoding of the first 32 bytes of the key data when it is not yet
set, and returns it, prepending the fixed algorithm-identifier constant unless
`raw` is true.  The mutation of the cache field is made explicit: the result
is returned together with the post-call key. -/
def Ed25519PrivateKey.toString (k : Ed25519PrivateKey) (raw : Bool) :
    String × Ed25519PrivateKey :=
  let rawStr :=
    match k.asStringRaw with
    | some s => s
    | none => encodeHex (k.keyData.take 32)
  ((if raw then "" else ed25519PrivKeyPfx) ++ rawStr,
    { k with asStringRaw := some rawStr })

/-- `toKeystore`: hands the key data and the passphrase to `createKeystore`. -/
def Ed25519PrivateKey.toKeystore (k : Ed25519PrivateKey) (passphrase : String) :
    KeystoreBlob :=
  createKeystore k.keyData passphrase

/-- Modelled from the spec (§4.2, the wording of the claim): render the
mnemonic to its phrase string; derive a 64-byte intermediate seed via PBKDF2
over that string with salt the literal `"mnemonic"` concatenated with the
passphrase, 2048 iterations, HMAC-SHA512 based; compute HMAC-SHA512 over that
seed keyed with the ASCII string `"ed25519 seed"`; take the left 32 bytes of
the digest as the working key and the right 32 bytes as the initial chain
code; apply the child-derivation step four times in sequence at the fixed
indices 44, 3030, 0, 0, each step replacing the key and chain code; the
returned key is built from the final 32-byte key and carries the final chain
code. -/
def fromMnemonicSpec (P : CryptoPrims) (m : Mnemonic) (p : String) :
    Except KeyError Ed25519PrivateKey :=
  let phrase := m.render
  let seed := P.pbkdf2Fn phrase ("mnemonic" ++ p) 2048 64 "sha512"
  let digest := P.hmacSha512 (asciiBytes "ed25519 seed") seed
  let step0 := (digest.take 32, digest.drop 32)
  let step1 := deriveChildKey P step0.1 step0.2 44
  let step2 := deriveChildKey P step1.1 step1.2 3030
  let step3 := deriveChildKey P step2.1 step2.2 0
  let step4 := deriveChildKey P step3.1 step3.2 0
  (Ed25519PrivateKey.fromBytes P step4.1).map fun k => { k with chainCode := some step4.2 }

/-- The (key, chain code) pair reached by the fixed derivation path of
`fromMnemonic`, named so its shape can be reasoned about. -/
def mnemonicFold (P : CryptoPrims) (m : Mnemonic) (p : String) : List Nat × List Nat :=
  let seed := P.pbkdf2Fn m.render ("mnemonic" ++ p) 2048 64 "sha512"
  let digest := P.hmacSha512 (asciiBytes "ed25519 seed") seed
  [44, 3030, 0, 0].foldl (fun s i => deriveChildKey P s.1 s.2 i) (digest.take 32, digest.drop 32)

/-- Well-formedness of a key: 64 bytes of key data, each below 256. -/
def goodKey (k : Ed25519PrivateKey) : Bool :=
  k.keyData.length == 64 && k.keyData.all fun b => b < 256

/-- The cached raw string form, when present, is a 64-character string that
decodes to the key's seed.  This holds on every construction path except
`fromString` with 128-character input. -/
def cacheOk (k : Ed25519PrivateKey) : Bool :=
  match k.asStringRaw with
  | none => true
  | some s => strLen s == 64 && decide (decodeHex s = some (k.keyData.take 32))

/-- A string made of hexadecimal digit characters. -/
def hexStrB (s : String) : Bool := s.data.all fun c => (hexDigitVal c).isSome

/-- A lowercase hexadecimal digit character (ASCII digit or `a`..`f`). -/
def isLowerHexChar (c : Char) : Bool :=
  (48 ≤ c.toNat && c.toNat ≤ 57) || (97 ≤ c.toNat && c.toNat ≤ 102)

/-- A concrete primitive bundle used to evaluate the development on explicit
inputs: the trusted primitives are interpreted by constant byte lists of the
contracted lengths. -/
def dummyPrims : CryptoPrims where
  edPub := fun _ => List.replicate 32 0
  hmacSha512 := fun _ _ => List.replicate 64 0
  pbkdf2Fn := fun _ _ _ n _ => List.replicate n 0
  edPub_len := fun _ => List.length_replicate 32 0
  edPub_byte := fun _ b hb => by
    rw [List.eq_of_mem_replicate hb]; omega
  hmac_len := fun _ _ => List.length_replicate 64 0
  hmac_byte := fun _ _ b hb => by
    rw [List.eq_of_mem_replicate hb]; omega
  pbkdf2_len := fun _ _ _ n _ => List.length_replicate n 0
  pbkdf2_byte := fun _ _ _ _ _ b hb => by
    rw [List.eq_of_mem_replicate hb]; omega

/-! ### A small buffer-heap model for the aliasing behaviour of `toBytes`

JavaScript `Uint8Array`s are mutable references into backing storage;
`slice(0, 32)` (used by `toBytes`) allocates fresh storage holding a copy,
while `subarray` would return a view into the same storage.  To state the
frame property of `toBytes` the buffers are placed in an explicit heap: a list
of byte buffers addressed by position. -/

/-- A heap of byte buffers. -/
abbrev Heap : Type := List (List Nat)

/-- Contents of the buffer at an address (empty when out of range). -/
def readBuf (h : Heap) (i : Nat) : List Nat := List.getD h i []

/-- In-place byte store `buf[off] = v` on the buffer at address `i`. -/
def writeByte (h : Heap) (i off v : Nat) : Heap := List.set h i ((readBuf h i).set off v)

/-- A key whose `_keyData` buffer lives in a heap slot; the other fields are
as in the pure model. -/
structure KeyRef where
  dataRef : Nat
  asStringRaw : Option String
  chainCode : Option (List Nat)

/-- `toBytes` in the heap model: `this._keyData.slice(0, 32)` allocates a
fresh buffer holding a copy of the first 32 bytes and returns its address. -/
def toBytesH (h : Heap) (k : KeyRef) : Heap × Nat :=
  (h ++ [(readBuf h k.dataRef).take 32], h.length)

/-- The byte value observed by `toBytes` in the heap model. -/
def toBytesValH (h : Heap) (k : KeyRef) : List Nat := (readBuf h k.dataRef).take 32

/-- The string value observed by `toString` in the heap model. -/
def toStringValH (h : Heap) (k : KeyRef) (raw : Bool) : String :=
  (if raw then "" else ed25519PrivKeyPfx) ++
    match k.asStringRaw with
    | some s => s
    | none => encodeHex ((readBuf h k.dataRef).take 32)

/-- The (key, chain code) value observed by `derive` in the heap model
(`none` when the key has no chain code). -/
def deriveValH (P : CryptoPrims) (h : Heap) (k : KeyRef) (i : Nat) :
    Option (List Nat × List Nat) :=
  match k.chainCode with
  | none => none
  | some cc => some (deriveChildKey P ((readBuf h k.dataRef).take 32) cc i)

/-- A 128-character hexadecimal string (64 zero bytes). -/
def hex128 : String := String.mk (List.replicate 128 '0')

/-- A 64-character uppercase hexadecimal string (32 bytes `0xAA`). -/
def hexUpper64 : String := String.mk (List.replicate 64 'A')

/-- The lowercase form of `hexUpper64`. -/
def hexLower64 : String := String.mk (List.replicate 64 'a')

/-- A 96-character hexadecimal string that does not start with the
algorithm-identifier constant. -/
def hex96zeros : String := String.mk (List.replicate 96 '0')

/-- A concrete well-formed key used to instantiate witness statements. -/
def witKey : Ed25519PrivateKey :=
  ⟨List.replicate 64 3, ⟨List.replicate 32 3⟩, none, none⟩

/-- A concrete well-formed heap and key reference for the heap-model witness. -/
def witHeap : Heap := [List.replicate 64 5]

/-- The key reference into `witHeap`. -/
def witKeyRef : KeyRef := ⟨0, none, none⟩

/-- The heap after the witness call of `toBytes`. -/
def witHeap2 : Heap := witHeap ++ [(readBuf witHeap 0).take 32]

/-! ### Facts about the hexadecimal codec -/

/-- A decoded hexadecimal digit is below 16. -/
theorem hexDigitVal_lt {c : Char} {v : Nat} (h : hexDigitVal c = some v) : v < 16 := by
  simp only [hexDigitVal] at h
  split at h
  · injection h with h; omega
  · split at h
    · injection h with h; omega
    · split at h
      · injection h with h; omega
      · cases h

/-- Encoding a value below 16 and decoding it gives the value back. -/
theorem hexDigitVal_hexDigitChar : ∀ v, v < 16 → hexDigitVal (hexDigitChar v) = some v := by
  decide

/-- The encoder emits lowercase hexadecimal digit characters. -/
theorem isLowerHexChar_hexDigitChar : ∀ v, v < 16 → isLowerHexChar (hexDigitChar v) = true := by
  decide

/-- Hex encoding doubles the length. -/
theorem encodeHexChars_length : ∀ bs : List Nat, (encodeHexChars bs).length = 2 * bs.length := by
  intro bs
  induction bs with
  | nil => rfl
  | cons b rest ih => simp [encodeHexChars, ih]; omega

/-- Decoding an encoded byte list gives the bytes back. -/
theorem decodeHexChars_encodeHexChars :
    ∀ bs : List Nat, (∀ b ∈ bs, b < 256) → decodeHexChars (encodeHexChars bs) = some bs := by
  intro bs
  induction bs with
  | nil => intro _; rfl
  | cons b rest ih =>
    intro hb
    have hb0 : b < 256 := hb b (List.mem_cons_self _ _)
    have h1 : hexDigitVal (hexDigitChar (b / 16)) = some (b / 16) :=
      hexDigitVal_hexDigitChar _ (by omega)
    have h2 : hexDigitVal (hexDigitChar (b % 16)) = some (b % 16) :=
      hexDigitVal_hexDigitChar _ (by omega)
    have h3 := ih fun x hx => hb x (List.mem_cons_of_mem _ hx)
    simp only [encodeHexChars, decodeHexChars, h1, h2, h3]
    have hsplit : b / 16 * 16 + b % 16 = b := by omega
    rw [hsplit]

/-- Every character emitted by the encoder is a lowercase hexadecimal digit. -/
theorem encodeHexChars_lower :
    ∀ bs : List Nat, (∀ b ∈ bs, b < 256) →
      ∀ c ∈ encodeHexChars bs, isLowerHexChar c = true := by
  intro bs
  induction bs with
  | nil => intro _ c hc; cases hc
  | cons b rest ih =>
    intro hb c hc
    have hb0 : b < 256 := hb b (List.mem_cons_self _ _)
    rcases hc with _ | ⟨_, (_ | ⟨_, hc⟩)⟩
    · exact isLowerHexChar_hexDigitChar _ (by omega)
    · exact isLowerHexChar_hexDigitChar _ (by omega)
    · exact ih (fun x hx => hb x (List.mem_cons_of_mem _ hx)) c hc

/-- Two-step list induction matching the recursion pattern of the decoder. -/
theorem twoStepInduction {P : List Char → Prop} (h0 : P []) (h1 : ∀ c, P [c])
    (h2 : ∀ c1 c2 rest, P rest → P (c1 :: c2 :: rest)) : ∀ cs, P cs
  | [] => h0
  | [c] => h1 c
  | c1 :: c2 :: rest => h2 c1 c2 rest (twoStepInduction h0 h1 h2 rest)

/-- A successfully decoded character list consists of hexadecimal digits. -/
theorem decodeHexChars_hex (cs : List Char) :
    ∀ bs, decodeHexChars cs = some bs → ∀ c ∈ cs, (hexDigitVal c).isSome = true := by
  induction cs using twoStepInduction with
  | h0 => intro bs _ c hc; cases hc
  | h1 c => intro bs h; cases h
  | h2 c1 c2 rest ih =>
    intro bs h c hc
    rcases ha : hexDigitVal c1 with _ | va <;>
      rcases hb : hexDigitVal c2 with _ | vb <;>
        rcases hr : decodeHexChars rest with _ | bs2 <;>
          simp only [decodeHexChars, ha, hb, hr] at h <;>
            cases h
    rcases hc with _ | ⟨_, (_ | ⟨_, hc⟩)⟩
    · simp [ha]
    · simp [hb]
    · exact ih bs2 hr c hc

/-- A successfully decoded character list has even length, twice the byte
count. -/
theorem decodeHexChars_length (cs : List Char) :
    ∀ bs, decodeHexChars cs = some bs → cs.length = 2 * bs.length := by
  induction cs using twoStepInduction with
  | h0 => intro bs h; injection h with h; subst h; rfl
  | h1 c => intro bs h; cases h
  | h2 c1 c2 rest ih =>
    intro bs h
    rcases ha : hexDigitVal c1 with _ | va <;>
      rcases hb : hexDigitVal c2 with _ | vb <;>
        rcases hr : decodeHexChars rest with _ | bs2 <;>
          simp only [decodeHexChars, ha, hb, hr] at h <;>
            cases h
    have := ih bs2 hr
    simp [List.length_cons, this]
    omega

/-- Decoded bytes are below 256. -/
theorem decodeHexChars_byte (cs : List Char) :
    ∀ bs, decodeHexChars cs = some bs → ∀ b ∈ bs, b < 256 := by
  induction cs using twoStepInduction with
  | h0 => intro bs h b hb; injection h with h; subst h; cases hb
  | h1 c => intro bs h; cases h
  | h2 c1 c2 rest ih =>
    intro bs h b hb
    rcases ha : hexDigitVal c1 with _ | va <;>
      rcases hb2 : hexDigitVal c2 with _ | vb <;>
        rcases hr : decodeHexChars rest with _ | bs2 <;>
          simp only [decodeHexChars, ha, hb2, hr] at h <;>
            cases h
    rcases hb with _ | ⟨_, hb⟩
    · have := hexDigitVal_lt ha
      have := hexDigitVal_lt hb2
      omega
    · exact ih bs2 hr b hb

/-- A character list of even length made of hexadecimal digits decodes
successfully. -/
theorem decodeHexChars_isSome_of_hex (cs : List Char) :
    cs.length % 2 = 0 → (∀ c ∈ cs, (hexDigitVal c).isSome = true) →
      (decodeHexChars cs).isSome = true := by
  induction cs using twoStepInduction with
  | h0 => intro _ _; rfl
  | h1 c => intro h _; simp at h
  | h2 c1 c2 rest ih =>
    intro hlen hhex
    have h1 : (hexDigitVal c1).isSome = true := hhex c1 (by simp)
    have h2 : (hexDigitVal c2).isSome = true := hhex c2 (by simp)
    rcases Option.isSome_iff_exists.mp h1 with ⟨va, ha⟩
    rcases Option.isSome_iff_exists.mp h2 with ⟨vb, hb⟩
    have hrest : (decodeHexChars rest).isSome = true := by
      refine ih ?_ fun c hc => hhex c (by simp [hc])
      simp [List.length_cons] at hlen ⊢
      omega
    rcases Option.isSome_iff_exists.mp hrest with ⟨bs2, hr⟩
    simp [decodeHexChars, ha, hb, hr]

/-! ### Facts about the string helpers -/

/-- Length of an appended string. -/
theorem strLen_append (a b : String) : strLen (a ++ b) = strLen a + strLen b := by
  simp [strLen, String.data_append]

/-- Length of the hex encoding of a byte list. -/
theorem strLen_encodeHex (bs : List Nat) : strLen (encodeHex bs) = 2 * bs.length := by
  show (encodeHexChars bs).length = 2 * bs.length
  exact encodeHexChars_length bs

/-- Dropping the first component of an appended string gives the second. -/
theorem sliceFrom_append (a b : String) : sliceFrom (a ++ b) (strLen a) = b := by
  cases b with
  | mk l =>
    show String.mk (((a ++ ⟨l⟩).data).drop (strLen a)) = ⟨l⟩
    rw [String.data_append]
    show String.mk ((a.data ++ l).drop a.data.length) = ⟨l⟩
    rw [List.drop_left]

/-- An appended string starts with its first component. -/
theorem startsWithStr_append (p s : String) : startsWithStr (p ++ s) p = true := by
  show p.data.isPrefixOf ((p ++ s).data) = true
  rw [String.data_append, List.isPrefixOf_iff_prefix]
  exact List.prefix_append _ _

/-! ### Key-level helper lemmas -/

/-- Unfolding of `goodKey`. -/
theorem goodKey_iff {k : Ed25519PrivateKey} :
    goodKey k = true ↔ k.keyData.length = 64 ∧ ∀ b ∈ k.keyData, b < 256 := by
  simp [goodKey]

/-- The private constructor succeeds on a 64-byte private key. -/
theorem construct_ok {kp : RawKeyPair} (h : kp.privateKey.length = 64) :
    Ed25519PrivateKey.construct kp =
      .ok ⟨kp.privateKey, ⟨kp.publicKey⟩, none, none⟩ := by
  simp [Ed25519PrivateKey.construct, naclSignSecretKeyLength, h, Ed25519PublicKey.fromBytes]

/-- The private constructor rejects any other private-key length. -/
theorem construct_err {kp : RawKeyPair} (h : kp.privateKey.length ≠ 64) :
    Ed25519PrivateKey.construct kp = .error .badKey := by
  simp [Ed25519PrivateKey.construct, naclSignSecretKeyLength, h]

/-- `fromBytes` on 32 bytes: seed concatenated with the derived public key. -/
theorem fromBytes_eq_of_len32 (P : CryptoPrims) {bytes : List Nat} (h : bytes.length = 32) :
    Ed25519PrivateKey.fromBytes P bytes =
      .ok ⟨bytes ++ P.edPub bytes, ⟨P.edPub bytes⟩, none, none⟩ := by
  have hl : (bytes ++ P.edPub bytes).length = 64 := by
    simp [List.length_append, h, P.edPub_len]
  simp only [Ed25519PrivateKey.fromBytes, if_pos h]
  exact construct_ok hl

/-- `fromBytes` on 64 bytes: the bytes as given, public key taken on trust. -/
theorem fromBytes_eq_of_len64 (P : CryptoPrims) {bytes : List Nat} (h : bytes.length = 64) :
    Ed25519PrivateKey.fromBytes P bytes =
      .ok ⟨bytes, ⟨bytes.drop 32⟩, none, none⟩ := by
  simp only [Ed25519PrivateKey.fromBytes, if_neg (by omega : ¬bytes.length = 32), if_pos h]
  exact construct_ok h

/-- `fromBytes` on any other length: `BadKeyError`. -/
theorem fromBytes_err (P : CryptoPrims) {bytes : List Nat}
    (h32 : bytes.length ≠ 32) (h64 : bytes.length ≠ 64) :
    Ed25519PrivateKey.fromBytes P bytes = .error .badKey := by
  simp only [Ed25519PrivateKey.fromBytes, if_neg h32, if_neg h64]

/-- Anatomy of a successful `fromBytes`. -/
theorem fromBytes_ok {P : CryptoPrims} {bytes : List Nat} {k : Ed25519PrivateKey}
    (h : Ed25519PrivateKey.fromBytes P bytes = .ok k) :
    (bytes.length = 32 ∧ k = ⟨bytes ++ P.edPub bytes, ⟨P.edPub bytes⟩, none, none⟩) ∨
      (bytes.length = 64 ∧ k = ⟨bytes, ⟨bytes.drop 32⟩, none, none⟩) := by
  by_cases h32 : bytes.length = 32
  · left
    refine ⟨h32, ?_⟩
    rw [fromBytes_eq_of_len32 P h32] at h
    exact (Except.ok.inj h).symm
  · by_cases h64 : bytes.length = 64
    · right
      refine ⟨h64, ?_⟩
      rw [fromBytes_eq_of_len64 P h64] at h
      exact (Except.ok.inj h).symm
    · rw [fromBytes_err P h32 h64] at h
      cases h

/-- A key built by `fromBytes` has 64 bytes of key data, no chain code, no
cached string, and its seed is the first 32 input bytes. -/
theorem fromBytes_ok_shape {P : CryptoPrims} {bytes : List Nat} {k : Ed25519PrivateKey}
    (h : Ed25519PrivateKey.fromBytes P bytes = .ok k) :
    k.keyData.length = 64 ∧ k.chainCode = none ∧ k.asStringRaw = none ∧
      k.toBytes = bytes.take 32 := by
  rcases fromBytes_ok h with ⟨h32, rfl⟩ | ⟨h64, rfl⟩
  · refine ⟨by simp [h32, P.edPub_len], rfl, rfl, ?_⟩
    show (bytes ++ P.edPub bytes).take 32 = bytes.take 32
    rw [← h32, List.take_left, List.take_of_length_le (by omega)]
  · exact ⟨h64, rfl, rfl, rfl⟩

/-- A key built by `fromBytes` from 32 input bytes has the input as its seed. -/
theorem fromBytes_toBytes_32 {P : CryptoPrims} {bytes : List Nat} {k : Ed25519PrivateKey}
    (hlen : bytes.length = 32) (h : Ed25519PrivateKey.fromBytes P bytes = .ok k) :
    k.toBytes = bytes := by
  rcases fromBytes_ok_shape h with ⟨-, -, -, ht⟩
  rw [ht, List.take_of_length_le (by omega)]

/-- A key built by `fromBytes` from bytes below 256 is well-formed. -/
theorem fromBytes_good {P : CryptoPrims} {bytes : List Nat} {k : Ed25519PrivateKey}
    (hb : ∀ b ∈ bytes, b < 256) (h : Ed25519PrivateKey.fromBytes P bytes = .ok k) :
    goodKey k = true := by
  rcases fromBytes_ok h with ⟨h32, rfl⟩ | ⟨h64, rfl⟩
  · refine goodKey_iff.mpr ⟨by simp [h32, P.edPub_len], ?_⟩
    intro b hbm
    rcases List.mem_append.mp hbm with hm | hm
    · exact hb b hm
    · exact P.edPub_byte _ b hm
  · exact goodKey_iff.mpr ⟨h64, hb⟩

/-- A successful `Except.map` comes from a successful base computation. -/
theorem except_map_ok {ε α β : Type} {e : Except ε α} {f : α → β} {b : β}
    (h : e.map f = .ok b) : ∃ a, e = .ok a ∧ f a = b := by
  cases e with
  | error err => cases h
  | ok a => exact ⟨a, rfl, Except.ok.inj h⟩

/-- `fromString` on a string of length 64 or 128 decodes the whole string. -/
theorem fromString_eq_6428 {P : CryptoPrims} {s : String}
    (hlen : strLen s = 64 ∨ strLen s = 128) :
    Ed25519PrivateKey.fromString P s =
      match decodeHex s with
      | some bs =>
        (Ed25519PrivateKey.fromBytes P bs).map fun k => { k with asStringRaw := some s }
      | none => .error .badKey := by
  simp only [Ed25519PrivateKey.fromString, if_pos hlen]

/-- `fromString` on a 96-character string with the prefix constant strips it
and decodes the remainder. -/
theorem fromString_eq_96 {P : CryptoPrims} {s : String} (hlen : strLen s = 96)
    (hp : startsWithStr s ed25519PrivKeyPfx = true) :
    Ed25519PrivateKey.fromString P s =
      match decodeHex (sliceFrom s 32) with
      | some bs =>
        (Ed25519PrivateKey.fromBytes P bs).map fun k =>
          { k with asStringRaw := some (sliceFrom s 32) }
      | none => .error .badKey := by
  have hno : ¬(strLen s = 64 ∨ strLen s = 128) := by omega
  simp only [Ed25519PrivateKey.fromString, if_neg hno, if_pos hlen, hp, if_pos]

/-- `fromString` on a 96-character string without the prefix constant fails. -/
theorem fromString_err_96 {P : CryptoPrims} {s : String} (hlen : strLen s = 96)
    (hp : startsWithStr s ed25519PrivKeyPfx = false) :
    Ed25519PrivateKey.fromString P s = .error .badKey := by
  have hno : ¬(strLen s = 64 ∨ strLen s = 128) := by omega
  simp only [Ed25519PrivateKey.fromString, if_neg hno, if_pos hlen, hp, Bool.false_eq_true,
    if_neg, not_false_eq_true]

/-- `fromString` on a string of any other length fails. -/
theorem fromString_err_len {P : CryptoPrims} {s : String} (h64 : strLen s ≠ 64)
    (h96 : strLen s ≠ 96) (h128 : strLen s ≠ 128) :
    Ed25519PrivateKey.fromString P s = .error .badKey := by
  have hno : ¬(strLen s = 64 ∨ strLen s = 128) := by omega
  simp only [Ed25519PrivateKey.fromString, if_neg hno, if_neg h96]

/-- Anatomy of a successful `fromString`. -/
theorem fromString_ok {P : CryptoPrims} {s : String} {k : Ed25519PrivateKey}
    (h : Ed25519PrivateKey.fromString P s = .ok k) :
    (∃ bs k0, (strLen s = 64 ∨ strLen s = 128) ∧ decodeHex s = some bs ∧
        Ed25519PrivateKey.fromBytes P bs = .ok k0 ∧ k = { k0 with asStringRaw := some s }) ∨
      (∃ bs k0, strLen s = 96 ∧ startsWithStr s ed25519PrivKeyPfx = true ∧
        decodeHex (sliceFrom s 32) = some bs ∧ Ed25519PrivateKey.fromBytes P bs = .ok k0 ∧
        k = { k0 with asStringRaw := some (sliceFrom s 32) }) := by
  by_cases hlen : strLen s = 64 ∨ strLen s = 128
  · left
    rw [fromString_eq_6428 hlen] at h
    rcases hdec : decodeHex s with _ | bs <;> rw [hdec] at h
    · cases h
    · rcases except_map_ok h with ⟨k0, hk0, hk⟩
      exact ⟨bs, k0, hlen, rfl, hk0, hk.symm⟩
  · by_cases h96 : strLen s = 96
    · rcases hp : startsWithStr s ed25519PrivKeyPfx with _ | _
      · rw [fromString_err_96 h96 hp] at h; cases h
      · right
        rw [fromString_eq_96 h96 hp] at h
        rcases hdec : decodeHex (sliceFrom s 32) with _ | bs <;> rw [hdec] at h
        · cases h
        · rcases except_map_ok h with ⟨k0, hk0, hk⟩
          exact ⟨bs, k0, h96, rfl, rfl, hk0, hk.symm⟩
    · rw [fromString_err_len (by omega) h96 (by omega)] at h
      cases h

/-- Left and right component lengths of a child-derivation step. -/
theorem deriveChildKey_len (P : CryptoPrims) (pk cc : List Nat) (i : Nat) :
    (deriveChildKey P pk cc i).1.length = 32 ∧ (deriveChildKey P pk cc i).2.length = 32 := by
  constructor
  · show ((P.hmacSha512 cc _).take 32).length = 32
    simp [List.length_take, P.hmac_len]
  · show ((P.hmacSha512 cc _).drop 32).length = 32
    simp [List.length_drop, P.hmac_len]

/-- Both components of a child-derivation step are bytes below 256. -/
theorem deriveChildKey_byte (P : CryptoPrims) (pk cc : List Nat) (i : Nat) :
    (∀ b ∈ (deriveChildKey P pk cc i).1, b < 256) ∧
      ∀ b ∈ (deriveChildKey P pk cc i).2, b < 256 := by
  constructor
  · intro b hb
    exact P.hmac_byte _ _ b (List.take_subset _ _ hb)
  · intro b hb
    exact P.hmac_byte _ _ b (List.drop_subset _ _ hb)

/-- `derive` on a key without a chain code fails with the
unsupported-operation error. -/
theorem derive_no_chainCode {P : CryptoPrims} {k : Ed25519PrivateKey} (i : Nat)
    (h : k.chainCode = none) :
    Ed25519PrivateKey.derive P k i = .error .derivationUnsupported := by
  simp [Ed25519PrivateKey.derive, h]

/-- `derive` on a chain-code-bearing key succeeds and attaches the new chain
code from the single child-derivation step. -/
theorem derive_some_chainCode {P : CryptoPrims} {k : Ed25519PrivateKey} {cc : List Nat}
    (i : Nat) (h : k.chainCode = some cc) :
    Ed25519PrivateKey.derive P k i =
      .ok ⟨(deriveChildKey P (k.keyData.take 32) cc i).1 ++
            P.edPub (deriveChildKey P (k.keyData.take 32) cc i).1,
          ⟨P.edPub (deriveChildKey P (k.keyData.take 32) cc i).1⟩, none,
          some (deriveChildKey P (k.keyData.take 32) cc i).2⟩ := by
  have hlen := (deriveChildKey_len P (k.keyData.take 32) cc i).1
  simp only [Ed25519PrivateKey.derive, h]
  rw [fromBytes_eq_of_len32 P hlen]
  rfl

/-- Prepending the empty string is the identity. -/
theorem empty_append_str (s : String) : "" ++ s = s := by
  refine String.ext ?_
  rw [String.data_append]
  rfl

/-- Unfolding of `cacheOk` when a string is cached. -/
theorem cacheOk_some {k : Ed25519PrivateKey} {s : String} (h : k.asStringRaw = some s)
    (hc : cacheOk k = true) : strLen s = 64 ∧ decodeHex s = some (k.keyData.take 32) := by
  obtain ⟨kd, pk, a, cc⟩ := k
  cases a with
  | none => cases h
  | some s2 =>
    injection h with h
    subst h
    simpa [cacheOk] using hc

/-- A key with no cached string satisfies `cacheOk`. -/
theorem cacheOk_none {k : Ed25519PrivateKey} (h : k.asStringRaw = none) : cacheOk k = true := by
  obtain ⟨kd, pk, a, cc⟩ := k
  cases a with
  | none => rfl
  | some s2 => cases h

/-- On even-length strings, decodability is exactly being made of hexadecimal
digits. -/
theorem decodeHex_isSome_iff {s : String} (he : strLen s % 2 = 0) :
    (decodeHex s).isSome = true ↔ hexStrB s = true := by
  constructor
  · intro h
    rcases Option.isSome_iff_exists.mp h with ⟨bs, hb⟩
    rw [hexStrB, List.all_eq_true]
    exact fun c hc => decodeHexChars_hex _ bs hb c hc
  · intro h
    refine decodeHexChars_isSome_of_hex _ he ?_
    rw [hexStrB, List.all_eq_true] at h
    exact h

/-- Anatomy of a successful private-constructor call. -/
theorem construct_ok_shape {kp : RawKeyPair} {k : Ed25519PrivateKey}
    (h : Ed25519PrivateKey.construct kp = .ok k) :
    k = ⟨kp.privateKey, ⟨kp.publicKey⟩, none, none⟩ ∧ kp.privateKey.length = 64 := by
  by_cases hl : kp.privateKey.length = 64
  · rw [construct_ok hl] at h
    exact ⟨(Except.ok.inj h).symm, hl⟩
  · rw [construct_err hl] at h
    cases h

/-- Anatomy of a successful `fromKeystore`. -/
theorem fromKeystore_ok {P : CryptoPrims} {blob : KeystoreBlob} {p : String}
    {k : Ed25519PrivateKey} (h : Ed25519PrivateKey.fromKeystore P blob p = .ok k) :
    blob.auth = p ∧
      k = ⟨blob.seed ++ P.edPub blob.seed, ⟨P.edPub blob.seed⟩, none, none⟩ ∧
      (blob.seed ++ P.edPub blob.seed).length = 64 := by
  unfold Ed25519PrivateKey.fromKeystore loadKeystore at h
  by_cases ha : blob.auth = p
  · rw [if_pos ha] at h
    have h2 : Ed25519PrivateKey.construct ⟨blob.seed ++ P.edPub blob.seed, P.edPub blob.seed⟩ =
        .ok k := h
    exact ⟨ha, (construct_ok_shape h2).1, (construct_ok_shape h2).2⟩
  · rw [if_neg ha] at h
    cases h

/-- A successful computation mapped stays a success with the function
applied. -/
theorem except_map_ok_of {ε α β : Type} {e : Except ε α} {f : α → β} {a : α}
    (h : e = .ok a) : e.map f = .ok (f a) := by
  rw [h]
  rfl

/-- The public-key bytes trail the seed in the internal representation. -/
theorem fromBytes_ok_pub {P : CryptoPrims} {bytes : List Nat} {k : Ed25519PrivateKey}
    (h : Ed25519PrivateKey.fromBytes P bytes = .ok k) :
    k.keyData.drop 32 = k.publicKey.bytes := by
  rcases fromBytes_ok h with ⟨h32, rfl⟩ | ⟨h64, rfl⟩
  · show (bytes ++ P.edPub bytes).drop 32 = P.edPub bytes
    rw [← h32, List.drop_left]
  · rfl

/-- `fromMnemonic` is the derivation-path fold followed by `fromBytes` and
chain-code attachment. -/
theorem fromMnemonic_eq_attach (P : CryptoPrims) (m : Mnemonic) (p : String) :
    Ed25519PrivateKey.fromMnemonic P m p =
      (Ed25519PrivateKey.fromBytes P (mnemonicFold P m p).1).map
        fun k0 => { k0 with chainCode := some (mnemonicFold P m p).2 } := rfl

/-- Component lengths of the derivation-path fold. -/
theorem mnemonicFold_len (P : CryptoPrims) (m : Mnemonic) (p : String) :
    (mnemonicFold P m p).1.length = 32 ∧ (mnemonicFold P m p).2.length = 32 :=
  deriveChildKey_len P _ _ 0

/-- Component bytes of the derivation-path fold are below 256. -/
theorem mnemonicFold_byte (P : CryptoPrims) (m : Mnemonic) (p : String) :
    (∀ b ∈ (mnemonicFold P m p).1, b < 256) ∧ ∀ b ∈ (mnemonicFold P m p).2, b < 256 :=
  deriveChildKey_byte P _ _ 0

/-- Shape of the (always successful) `fromMnemonic`. -/
theorem fromMnemonic_shape (P : CryptoPrims) (m : Mnemonic) (p : String) :
    Ed25519PrivateKey.fromMnemonic P m p =
      .ok ⟨(mnemonicFold P m p).1 ++ P.edPub (mnemonicFold P m p).1,
        ⟨P.edPub (mnemonicFold P m p).1⟩, none, some (mnemonicFold P m p).2⟩ := by
  rw [fromMnemonic_eq_attach, fromBytes_eq_of_len32 P (mnemonicFold_len P m p).1]
  rfl

/-! ### Heap-model lemmas -/

/-- Reading below the old length after an append sees the old heap. -/
theorem readBuf_append_lt (h : Heap) (l : List (List Nat)) {j : Nat}
    (hj : j < List.length h) : readBuf (h ++ l) j = readBuf h j := by
  unfold readBuf
  rw [List.getD_eq_getElem?_getD, List.getD_eq_getElem?_getD]
  show (h ++ l)[j]?.getD [] = h[j]?.getD []
  rw [List.getElem?_append, if_pos hj]

/-- Reading the just-appended slot sees the appended buffer. -/
theorem readBuf_append_self (h : Heap) (x : List Nat) :
    readBuf (h ++ [x]) (List.length h) = x := by
  unfold readBuf
  rw [List.getD_eq_getElem?_getD]
  show (h ++ [x])[h.length]?.getD [] = x
  simp

/-- Writing one buffer leaves every other buffer unchanged. -/
theorem readBuf_writeByte_ne (h : Heap) (i off v : Nat) {j : Nat} (hne : i ≠ j) :
    readBuf (writeByte h i off v) j = readBuf h j := by
  unfold readBuf writeByte
  rw [List.getD_eq_getElem?_getD, List.getD_eq_getElem?_getD]
  show (List.set h i _)[j]?.getD [] = h[j]?.getD []
  rw [List.getElem?_set_ne hne]

/-- Round trip through `fromString` for a prefixed 64-character raw string
decoding to a 32-byte seed. -/
theorem fromString_pfx_roundtrip {P : CryptoPrims} {r : String} {tb : List Nat}
    (htb32 : tb.length = 32) (hlenr : strLen r = 64) (hdec : decodeHex r = some tb) :
    (Ed25519PrivateKey.fromString P (ed25519PrivKeyPfx ++ r)).map Ed25519PrivateKey.toBytes =
      .ok tb := by
  have hp32 : strLen ed25519PrivKeyPfx = 32 := by decide
  have hlen96 : strLen (ed25519PrivKeyPfx ++ r) = 96 := by
    rw [strLen_append, hp32, hlenr]
  have hsw := startsWithStr_append ed25519PrivKeyPfx r
  have hslice : sliceFrom (ed25519PrivKeyPfx ++ r) 32 = r := by
    have h := sliceFrom_append ed25519PrivKeyPfx r
    rw [hp32] at h
    exact h
  rw [fromString_eq_96 hlen96 hsw, hslice, hdec]
  show ((Ed25519PrivateKey.fromBytes P tb).map fun k =>
      { k with asStringRaw := some r }).map Ed25519PrivateKey.toBytes = .ok tb
  rw [except_map_ok_of (fromBytes_eq_of_len32 P htb32)]
  show Except.ok ((tb ++ P.edPub tb).take 32) = Except.ok tb
  rw [List.take_left' htb32]

/-! ### The claims -/

/-- C1: `fromMnemonic(mnemonic, passphrase)` computes its result by exactly
the specified pipeline — render the phrase; PBKDF2 with salt `"mnemonic"`
concatenated with the passphrase, 2048 iterations, HMAC-SHA512 based, 64
bytes; HMAC-SHA512 keyed with the ASCII string `"ed25519 seed"`; left 32
bytes the working key, right 32 bytes the initial chain code; the
child-derivation step four times at the fixed indices 44, 3030, 0, 0; the
returned key is built from the final 32-byte key and carries the final chain
code. -/
theorem C1_fromMnemonic_pipeline (P : CryptoPrims) (m : Mnemonic) (p : String) :
    Ed25519PrivateKey.fromMnemonic P m p = fromMnemonicSpec P m p := rfl

/-- C2: the chain code is present exactly on the mnemonic/derivation paths —
keys from `fromBytes`, `fromString`, `generate`, and `fromKeystore` carry no
chain code; `fromMnemonic` keys carry one; `derive` on a key without a chain
code fails with the unsupported-operation error; and `derive` on a
chain-code-bearing key yields a key that again carries a chain code, so
`supportsDerivation` remains true on derived keys. -/
theorem C2_chainCode_invariant (P : CryptoPrims) :
    (∀ bytes k, Ed25519PrivateKey.fromBytes P bytes = .ok k → k.chainCode = none) ∧
    (∀ s k, Ed25519PrivateKey.fromString P s = .ok k → k.chainCode = none) ∧
    (∀ entropy k, Ed25519PrivateKey.generate P entropy = .ok k → k.chainCode = none) ∧
    (∀ blob p k, Ed25519PrivateKey.fromKeystore P blob p = .ok k → k.chainCode = none) ∧
    (∀ m p k, Ed25519PrivateKey.fromMnemonic P m p = .ok k → k.chainCode.isSome = true) ∧
    (∀ k i, k.chainCode = none →
      Ed25519PrivateKey.derive P k i = .error .derivationUnsupported) ∧
    (∀ k i k2, Ed25519PrivateKey.derive P k i = .ok k2 →
      k2.chainCode.isSome = true ∧ k2.supportsDerivation = true) := by
  refine ⟨?_, ?_, ?_, ?_, ?_, ?_, ?_⟩
  · intro bytes k h
    exact (fromBytes_ok_shape h).2.1
  · intro s k h
    rcases fromString_ok h with ⟨bs, k0, -, -, h0, rfl⟩ | ⟨bs, k0, -, -, -, h0, rfl⟩ <;>
      exact (fromBytes_ok_shape h0).2.1
  · intro entropy k h
    exact (fromBytes_ok_shape h).2.1
  · intro blob p k h
    rw [(fromKeystore_ok h).2.1]
  · intro m p k h
    rw [fromMnemonic_shape P m p] at h
    rw [← Except.ok.inj h]
    rfl
  · intro k i h
    exact derive_no_chainCode i h
  · intro k i k2 h
    rcases hcc : k.chainCode with _ | cc
    · rw [derive_no_chainCode i hcc] at h
      cases h
    · rw [derive_some_chainCode i hcc] at h
      rw [← Except.ok.inj h]
      exact ⟨rfl, rfl⟩

/-- Witness for C2 at concrete inputs. -/
theorem C2_witness :
    Ed25519PrivateKey.derive dummyPrims
        ⟨List.replicate 64 0, ⟨List.replicate 32 0⟩, none, none⟩ 5 =
      .error .derivationUnsupported :=
  (C2_chainCode_invariant dummyPrims).2.2.2.2.2.1
    ⟨List.replicate 64 0, ⟨List.replicate 32 0⟩, none, none⟩ 5 rfl

/-- C5: `fromBytes` succeeds exactly on 32 bytes (a bare seed, the public key
derived by the ed25519 key-pair primitive) or 64 bytes (seed concatenated
with a caller-supplied public key taken on trust); every other length fails
with the malformed-key error, and no partially constructed key is returned —
the result is either a complete key or the error. -/
theorem C5_fromBytes_lengths (P : CryptoPrims) (bytes : List Nat) :
    (bytes.length = 32 →
      Ed25519PrivateKey.fromBytes P bytes =
        .ok ⟨bytes ++ P.edPub bytes, ⟨P.edPub bytes⟩, none, none⟩) ∧
    (bytes.length = 64 →
      Ed25519PrivateKey.fromBytes P bytes = .ok ⟨bytes, ⟨bytes.drop 32⟩, none, none⟩) ∧
    (bytes.length ≠ 32 → bytes.length ≠ 64 →
      Ed25519PrivateKey.fromBytes P bytes = .error .badKey) :=
  ⟨fun h => fromBytes_eq_of_len32 P h, fun h => fromBytes_eq_of_len64 P h,
    fun h32 h64 => fromBytes_err P h32 h64⟩

/-- Witness for C5 at concrete inputs. -/
theorem C5_witness :
    Ed25519PrivateKey.fromBytes dummyPrims (List.replicate 32 1) =
      .ok ⟨List.replicate 32 1 ++ List.replicate 32 0, ⟨List.replicate 32 0⟩, none, none⟩ ∧
    Ed25519PrivateKey.fromBytes dummyPrims (List.replicate 33 1) = .error .badKey :=
  ⟨(C5_fromBytes_lengths dummyPrims (List.replicate 32 1)).1 (by decide),
    (C5_fromBytes_lengths dummyPrims (List.replicate 33 1)).2.2 (by decide) (by decide)⟩

/-- C10: `toString(false)` is always the fixed 32-character prefix constant
concatenated with `toString(true)`; the flag controls only the presence of
the prefix; and calling `toString` with either flag value first changes
neither the later results nor the later cache states for either flag
value. -/
theorem C10_toString_raw_flag :
    (∀ k : Ed25519PrivateKey,
      (k.toString false).1 = ed25519PrivKeyPfx ++ (k.toString true).1) ∧
    (∀ (k : Ed25519PrivateKey) (b b2 : Bool),
      (((k.toString b).2).toString b2).1 = (k.toString b2).1) ∧
    (∀ (k : Ed25519PrivateKey) (b b2 : Bool),
      (((k.toString b).2).toString b2).2 = (k.toString b2).2) := by
  refine ⟨?_, ?_, ?_⟩
  · intro k
    obtain ⟨kd, pk, a, cc⟩ := k
    cases a <;> simp [Ed25519PrivateKey.toString, empty_append_str]
  · intro k b b2
    obtain ⟨kd, pk, a, cc⟩ := k
    cases a <;> rfl
  · intro k b b2
    obtain ⟨kd, pk, a, cc⟩ := k
    cases a <;> rfl

/-- C9: every successfully constructed key, on every construction path,
stores an internal key representation of exactly 64 bytes — the seed followed
by the public-key bytes; the private constructor rejects any other length
with the malformed-key error; and `toBytes`, `toString` and `derive` read
only the first 32 bytes of this internal representation (besides the cache
and chain-code fields). -/
theorem C9_internal_representation (P : CryptoPrims) :
    (∀ kp, kp.privateKey.length ≠ 64 →
      Ed25519PrivateKey.construct kp = .error .badKey) ∧
    (∀ bytes k, Ed25519PrivateKey.fromBytes P bytes = .ok k →
      k.keyData.length = 64 ∧ k.keyData.drop 32 = k.publicKey.bytes) ∧
    (∀ s k, Ed25519PrivateKey.fromString P s = .ok k →
      k.keyData.length = 64 ∧ k.keyData.drop 32 = k.publicKey.bytes) ∧
    (∀ m p k, Ed25519PrivateKey.fromMnemonic P m p = .ok k →
      k.keyData.length = 64 ∧ k.keyData.drop 32 = k.publicKey.bytes) ∧
    (∀ blob p k, Ed25519PrivateKey.fromKeystore P blob p = .ok k →
      k.keyData.length = 64 ∧ k.keyData.drop 32 = k.publicKey.bytes) ∧
    (∀ entropy k, Ed25519PrivateKey.generate P entropy = .ok k →
      k.keyData.length = 64 ∧ k.keyData.drop 32 = k.publicKey.bytes) ∧
    (∀ k0 i k, Ed25519PrivateKey.derive P k0 i = .ok k →
      k.keyData.length = 64 ∧ k.keyData.drop 32 = k.publicKey.bytes) ∧
    (∀ k : Ed25519PrivateKey, k.toBytes = k.keyData.take 32) ∧
    (∀ k1 k2 : Ed25519PrivateKey, k1.keyData.take 32 = k2.keyData.take 32 →
      k1.asStringRaw = k2.asStringRaw →
      ∀ raw, (k1.toString raw).1 = (k2.toString raw).1) ∧
    (∀ (k1 k2 : Ed25519PrivateKey) (i : Nat), k1.keyData.take 32 = k2.keyData.take 32 →
      k1.chainCode = k2.chainCode →
      Ed25519PrivateKey.derive P k1 i = Ed25519PrivateKey.derive P k2 i) := by
  refine ⟨?_, ?_, ?_, ?_, ?_, ?_, ?_, ?_, ?_, ?_⟩
  · intro kp h
    exact construct_err h
  · intro bytes k h
    exact ⟨(fromBytes_ok_shape h).1, fromBytes_ok_pub h⟩
  · intro s k h
    rcases fromString_ok h with ⟨bs, k0, -, -, h0, rfl⟩ | ⟨bs, k0, -, -, -, h0, rfl⟩ <;>
      exact ⟨(fromBytes_ok_shape h0).1,
        show k0.keyData.drop 32 = k0.publicKey.bytes from fromBytes_ok_pub h0⟩
  · intro m p k h
    rw [fromMnemonic_shape P m p] at h
    rw [← Except.ok.inj h]
    have h32 := (mnemonicFold_len P m p).1
    constructor
    · show ((mnemonicFold P m p).1 ++ P.edPub (mnemonicFold P m p).1).length = 64
      simp [List.length_append, h32, P.edPub_len]
    · show ((mnemonicFold P m p).1 ++ P.edPub (mnemonicFold P m p).1).drop 32 =
        P.edPub (mnemonicFold P m p).1
      rw [List.drop_left' h32]
  · intro blob p k h
    obtain ⟨-, rfl, hlen⟩ := fromKeystore_ok h
    have hseed : blob.seed.length = 32 := by
      have := P.edPub_len blob.seed
      rw [List.length_append] at hlen
      omega
    refine ⟨hlen, ?_⟩
    show (blob.seed ++ P.edPub blob.seed).drop 32 = P.edPub blob.seed
    rw [← hseed, List.drop_left]
  · intro entropy k h
    exact ⟨(fromBytes_ok_shape h).1, fromBytes_ok_pub h⟩
  · intro k0 i k h
    rcases hcc : k0.chainCode with _ | cc
    · rw [derive_no_chainCode i hcc] at h
      cases h
    · rw [derive_some_chainCode i hcc] at h
      rw [← Except.ok.inj h]
      have h32 := (deriveChildKey_len P (k0.keyData.take 32) cc i).1
      constructor
      · show ((deriveChildKey P (k0.keyData.take 32) cc i).1 ++
            P.edPub (deriveChildKey P (k0.keyData.take 32) cc i).1).length = 64
        simp [List.length_append, h32, P.edPub_len]
      · show ((deriveChildKey P (k0.keyData.take 32) cc i).1 ++
            P.edPub (deriveChildKey P (k0.keyData.take 32) cc i).1).drop 32 =
          P.edPub (deriveChildKey P (k0.keyData.take 32) cc i).1
        rw [List.drop_left' h32]
  · intro k
    rfl
  · intro k1 k2 hseed hcache raw
    obtain ⟨kd1, pk1, a1, cc1⟩ := k1
    obtain ⟨kd2, pk2, a2, cc2⟩ := k2
    have ha : a1 = a2 := hcache
    subst ha
    have hs : kd1.take 32 = kd2.take 32 := hseed
    cases a1 <;> simp [Ed25519PrivateKey.toString, hs]
  · intro k1 k2 i hseed hcc
    obtain ⟨kd1, pk1, a1, cc1⟩ := k1
    obtain ⟨kd2, pk2, a2, cc2⟩ := k2
    have hc : cc1 = cc2 := hcc
    subst hc
    have hs : kd1.take 32 = kd2.take 32 := hseed
    cases cc1 <;> simp [Ed25519PrivateKey.derive, hs]

/-- Witness for C9 at a concrete input. -/
theorem C9_witness :
    Ed25519PrivateKey.construct ⟨List.replicate 10 0, []⟩ = .error .badKey :=
  (C9_internal_representation dummyPrims).1 ⟨List.replicate 10 0, []⟩ (by decide)

/-- C6: `fromString` succeeds exactly on hexadecimal strings of length 64 or
128, and on strings of length 96 that begin with the fixed 32-character
algorithm-identifier constant and whose remaining 64 characters are
hexadecimal (the constant is stripped before decoding); every failure — any
other length, a 96-character string without the constant, or non-hexadecimal
content — is the malformed-key error. -/
theorem C6_fromString_formats (P : CryptoPrims) (s : String) :
    ((∃ k, Ed25519PrivateKey.fromString P s = .ok k) ↔
      ((strLen s = 64 ∨ strLen s = 128) ∧ hexStrB s = true) ∨
        (strLen s = 96 ∧ startsWithStr s ed25519PrivKeyPfx = true ∧
          hexStrB (sliceFrom s 32) = true)) ∧
    ∀ e, Ed25519PrivateKey.fromString P s = .error e → e = .badKey := by
  constructor
  · constructor
    · rintro ⟨k, hk⟩
      rcases fromString_ok hk with ⟨bs, k0, hlen, hdec, -, -⟩ | ⟨bs, k0, h96, hp, hdec, -, -⟩
      · left
        refine ⟨hlen, ?_⟩
        have he : strLen s % 2 = 0 := by omega
        rw [← decodeHex_isSome_iff he, hdec]
        rfl
      · right
        refine ⟨h96, hp, ?_⟩
        have h96l : s.data.length = 96 := h96
        have he : strLen (sliceFrom s 32) % 2 = 0 := by
          show (s.data.drop 32).length % 2 = 0
          simp [List.length_drop, h96l]
        rw [← decodeHex_isSome_iff he, hdec]
        rfl
    · rintro (⟨hlen, hhex⟩ | ⟨h96, hp, hhex⟩)
      · have hs : (decodeHex s).isSome = true := (decodeHex_isSome_iff (by omega)).mpr hhex
        rcases Option.isSome_iff_exists.mp hs with ⟨bs, hdec⟩
        have hbslen : s.data.length = 2 * bs.length := decodeHexChars_length _ bs hdec
        rw [fromString_eq_6428 hlen, hdec]
        rcases hlen with h | h
        · have h' : s.data.length = 64 := h
          exact ⟨_, except_map_ok_of (fromBytes_eq_of_len32 P (by omega))⟩
        · have h' : s.data.length = 128 := h
          exact ⟨_, except_map_ok_of (fromBytes_eq_of_len64 P (by omega))⟩
      · have h96l : s.data.length = 96 := h96
        have he : strLen (sliceFrom s 32) % 2 = 0 := by
          show (s.data.drop 32).length % 2 = 0
          simp [List.length_drop, h96l]
        have hs : (decodeHex (sliceFrom s 32)).isSome = true :=
          (decodeHex_isSome_iff he).mpr hhex
        rcases Option.isSome_iff_exists.mp hs with ⟨bs, hdec⟩
        have hbslen : (s.data.drop 32).length = 2 * bs.length :=
          decodeHexChars_length _ bs hdec
        have hb32 : bs.length = 32 := by
          rw [List.length_drop, h96l] at hbslen
          omega
        rw [fromString_eq_96 h96 hp, hdec]
        exact ⟨_, except_map_ok_of (fromBytes_eq_of_len32 P hb32)⟩
  · intro e he
    by_cases hlen : strLen s = 64 ∨ strLen s = 128
    · rw [fromString_eq_6428 hlen] at he
      rcases hdec : decodeHex s with _ | bs <;> rw [hdec] at he
      · exact (Except.error.inj he).symm
      · have hbslen : s.data.length = 2 * bs.length := decodeHexChars_length _ bs hdec
        rcases hlen with h | h
        · have h' : s.data.length = 64 := h
          have hb32 : bs.length = 32 := by omega
          cases (except_map_ok_of (fromBytes_eq_of_len32 P hb32)).symm.trans he
        · have h' : s.data.length = 128 := h
          have hb64 : bs.length = 64 := by omega
          cases (except_map_ok_of (fromBytes_eq_of_len64 P hb64)).symm.trans he
    · by_cases h96 : strLen s = 96
      · rcases hp : startsWithStr s ed25519PrivKeyPfx with _ | _
        · rw [fromString_err_96 h96 hp] at he
          exact (Except.error.inj he).symm
        · rw [fromString_eq_96 h96 hp] at he
          rcases hdec : decodeHex (sliceFrom s 32) with _ | bs <;> rw [hdec] at he
          · exact (Except.error.inj he).symm
          · have h96l : s.data.length = 96 := h96
            have hbslen : (s.data.drop 32).length = 2 * bs.length :=
              decodeHexChars_length _ bs hdec
            have hb32 : bs.length = 32 := by
              rw [List.length_drop, h96l] at hbslen
              omega
            cases (except_map_ok_of (fromBytes_eq_of_len32 P hb32)).symm.trans he
      · rw [fromString_err_len (by omega) h96 (by omega)] at he
        exact (Except.error.inj he).symm

/-- Witness for C6 at concrete inputs. -/
theorem C6_witness :
    (Ed25519PrivateKey.fromString dummyPrims hexLower64).isOk = true ∧
      KeyError.badKey = KeyError.badKey := by
  constructor
  · obtain ⟨k, hk⟩ := (C6_fromString_formats dummyPrims hexLower64).1.mpr (by decide)
    rw [hk]
    rfl
  · exact (C6_fromString_formats dummyPrims hex96zeros).2 .badKey (by rfl)

/-- C7: `toKeystore(passphrase)` encrypts exactly the key's 32-byte seed;
`fromKeystore(toKeystore(k, p), p)` recovers a key with the same `toBytes`;
and decoding with a different passphrase fails with the dedicated
authentication-failure error `KeyMismatchError`, not a generic exception.  In
this state-passing embedding `toKeystore` returns only the blob and leaves
the key value untouched. -/
theorem C7_keystore_roundtrip (P : CryptoPrims) (k : Ed25519PrivateKey) (p p2 : String)
    (hg : goodKey k = true) (hne : p2 ≠ p) :
    (k.toKeystore p).seed = k.toBytes ∧
      (Ed25519PrivateKey.fromKeystore P (k.toKeystore p) p).map Ed25519PrivateKey.toBytes =
        .ok k.toBytes ∧
      Ed25519PrivateKey.fromKeystore P (k.toKeystore p) p2 = .error .keyMismatch := by
  have hlen : k.keyData.length = 64 := (goodKey_iff.mp hg).1
  have htake : (k.keyData.take 32).length = 32 := by
    simp [List.length_take]
    omega
  refine ⟨rfl, ?_, ?_⟩
  · show (Ed25519PrivateKey.fromKeystore P ⟨k.keyData.take 32, p⟩ p).map _ = _
    unfold Ed25519PrivateKey.fromKeystore loadKeystore
    rw [if_pos rfl]
    have hc : Ed25519PrivateKey.construct
        ⟨k.keyData.take 32 ++ P.edPub (k.keyData.take 32), P.edPub (k.keyData.take 32)⟩ =
          .ok ⟨k.keyData.take 32 ++ P.edPub (k.keyData.take 32),
            ⟨P.edPub (k.keyData.take 32)⟩, none, none⟩ :=
      construct_ok (by simp [List.length_append, htake, P.edPub_len])
    show (Ed25519PrivateKey.construct
        ⟨k.keyData.take 32 ++ P.edPub (k.keyData.take 32), P.edPub (k.keyData.take 32)⟩).map
          Ed25519PrivateKey.toBytes = .ok (k.keyData.take 32)
    rw [hc]
    show Except.ok ((k.keyData.take 32 ++ P.edPub (k.keyData.take 32)).take 32) =
      Except.ok (k.keyData.take 32)
    rw [List.take_left' htake]
  · show Ed25519PrivateKey.fromKeystore P ⟨k.keyData.take 32, p⟩ p2 = _
    unfold Ed25519PrivateKey.fromKeystore loadKeystore
    rw [if_neg fun hh => hne hh.symm]
    rfl

/-- Witness for C7 at concrete inputs. -/
theorem C7_witness :
    (witKey.toKeystore "pass").seed = witKey.toBytes ∧
      (Ed25519PrivateKey.fromKeystore dummyPrims (witKey.toKeystore "pass") "pass").map
          Ed25519PrivateKey.toBytes = .ok witKey.toBytes ∧
      Ed25519PrivateKey.fromKeystore dummyPrims (witKey.toKeystore "pass") "wrong" =
        .error .keyMismatch :=
  C7_keystore_roundtrip dummyPrims witKey "pass" "wrong" (by decide) (by decide)

/-- C8: `toBytes` returns a fresh copy of the 32-byte seed, never a view into
the key's internal storage — in the buffer-heap model the returned buffer is
a new slot holding a copy of the first 32 bytes, and writing any byte of it
leaves the key's own buffer, and therewith the values observed by every
subsequent `toBytes`, `toString`, or `derive` call, unchanged. -/
theorem C8_toBytes_fresh_copy (P : CryptoPrims) (h : Heap) (k : KeyRef) (off v : Nat)
    (h1 : Heap) (r : Nat) (hk : k.dataRef < List.length h)
    (heq : toBytesH h k = (h1, r)) :
    readBuf h1 r = toBytesValH h k ∧
      readBuf (writeByte h1 r off v) k.dataRef = readBuf h k.dataRef ∧
      toBytesValH (writeByte h1 r off v) k = toBytesValH h k ∧
      (∀ raw, toStringValH (writeByte h1 r off v) k raw = toStringValH h k raw) ∧
      ∀ i, deriveValH P (writeByte h1 r off v) k i = deriveValH P h k i := by
  obtain ⟨d, a, cc⟩ := k
  injection heq with hh1 hr
  subst hh1 hr
  simp only at hk ⊢
  have hne : List.length h ≠ d := by omega
  have hcore : readBuf (writeByte (h ++ [(readBuf h d).take 32])
      (List.length h) off v) d = readBuf h d := by
    rw [readBuf_writeByte_ne _ _ _ _ hne]
    exact readBuf_append_lt h _ hk
  refine ⟨readBuf_append_self h _, hcore, ?_, ?_, ?_⟩
  · show (readBuf (writeByte _ _ off v) d).take 32 = (readBuf h d).take 32
    rw [hcore]
  · intro raw
    cases a <;> simp [toStringValH, hcore]
  · intro i
    cases cc <;> simp [deriveValH, hcore]

/-- Witness for C8 at a concrete heap and key. -/
theorem C8_witness :
    readBuf witHeap2 1 = toBytesValH witHeap witKeyRef ∧
      readBuf (writeByte witHeap2 1 0 9) witKeyRef.dataRef = readBuf witHeap witKeyRef.dataRef ∧
      toStringValH (writeByte witHeap2 1 0 9) witKeyRef true =
        toStringValH witHeap witKeyRef true :=
  ⟨(C8_toBytes_fresh_copy dummyPrims witHeap witKeyRef 0 9 witHeap2 1 (by decide) rfl).1,
    (C8_toBytes_fresh_copy dummyPrims witHeap witKeyRef 0 9 witHeap2 1 (by decide) rfl).2.1,
    (C8_toBytes_fresh_copy dummyPrims witHeap witKeyRef 0 9 witHeap2 1
      (by decide) rfl).2.2.2.1 true⟩

set_option maxRecDepth 8192 in
/-- C3 counterexample: a key validly constructed by `fromString` from a
128-character hexadecimal string caches the full 128-character input, so
`toString()` yields a 160-character string that `fromString` rejects with the
malformed-key error — the round trip `fromString(k.toString())` fails instead
of reproducing `k.toBytes()`. -/
theorem C3_counterexample :
    (Ed25519PrivateKey.fromString dummyPrims hex128).map
        (fun k => Ed25519PrivateKey.fromString dummyPrims ((k.toString false).1)) =
      .ok (.error .badKey) := rfl

/-- C3 (amended): `fromBytes(k.toBytes()).toBytes() = k.toBytes()` holds for
every well-formed key; `fromString(k.toString()).toBytes() = k.toBytes()`
holds for every key whose cached raw string form (when present) is a
64-character decoding of its seed — which is every construction path except
`fromString` with 128-character input, where the cached string is the full
128-character input and `toString()` does not round-trip. -/
theorem C3_roundTrip_amended (P : CryptoPrims) :
    (∀ k : Ed25519PrivateKey, goodKey k = true →
      (Ed25519PrivateKey.fromBytes P k.toBytes).map Ed25519PrivateKey.toBytes =
        .ok k.toBytes) ∧
    (∀ k : Ed25519PrivateKey, goodKey k = true → cacheOk k = true →
      (Ed25519PrivateKey.fromString P ((k.toString false).1)).map Ed25519PrivateKey.toBytes =
        .ok k.toBytes) ∧
    (∀ bytes k, Ed25519PrivateKey.fromBytes P bytes = .ok k → cacheOk k = true) ∧
    (∀ m p k, Ed25519PrivateKey.fromMnemonic P m p = .ok k → cacheOk k = true) ∧
    (∀ blob p k, Ed25519PrivateKey.fromKeystore P blob p = .ok k → cacheOk k = true) ∧
    (∀ entropy k, Ed25519PrivateKey.generate P entropy = .ok k → cacheOk k = true) ∧
    (∀ k0 i k, Ed25519PrivateKey.derive P k0 i = .ok k → cacheOk k = true) ∧
    (∀ s k, Ed25519PrivateKey.fromString P s = .ok k → strLen s ≠ 128 →
      cacheOk k = true) := by
  refine ⟨?_, ?_, ?_, ?_, ?_, ?_, ?_, ?_⟩
  · intro k hg
    have hlen : k.keyData.length = 64 := (goodKey_iff.mp hg).1
    have htb : k.toBytes.length = 32 := by
      show (k.keyData.take 32).length = 32
      simp [List.length_take]
      omega
    rw [except_map_ok_of (fromBytes_eq_of_len32 P htb)]
    show Except.ok ((k.toBytes ++ P.edPub k.toBytes).take 32) = Except.ok k.toBytes
    rw [List.take_left' htb]
  · intro k hg hc
    have hlen : k.keyData.length = 64 := (goodKey_iff.mp hg).1
    have hbyte : ∀ b ∈ k.keyData, b < 256 := (goodKey_iff.mp hg).2
    obtain ⟨kd, pk, a, cc⟩ := k
    have hlen2 : kd.length = 64 := hlen
    have htb : (kd.take 32).length = 32 := by
      simp [List.length_take]
      omega
    cases a with
    | some s =>
      obtain ⟨hs64, hsdec⟩ := cacheOk_some rfl hc
      show (Ed25519PrivateKey.fromString P (ed25519PrivKeyPfx ++ s)).map
        Ed25519PrivateKey.toBytes = .ok (kd.take 32)
      exact fromString_pfx_roundtrip htb hs64 hsdec
    | none =>
      have hdec : decodeHex (encodeHex (kd.take 32)) = some (kd.take 32) :=
        decodeHexChars_encodeHexChars _ fun b hb => hbyte b (List.take_subset _ _ hb)
      have hs64 : strLen (encodeHex (kd.take 32)) = 64 := by
        rw [strLen_encodeHex, htb]
      show (Ed25519PrivateKey.fromString P (ed25519PrivKeyPfx ++ encodeHex (kd.take 32))).map
        Ed25519PrivateKey.toBytes = .ok (kd.take 32)
      exact fromString_pfx_roundtrip htb hs64 hdec
  · intro bytes k h
    exact cacheOk_none (fromBytes_ok_shape h).2.2.1
  · intro m p k h
    rw [fromMnemonic_shape P m p] at h
    rw [← Except.ok.inj h]
    exact cacheOk_none rfl
  · intro blob p k h
    obtain ⟨-, rfl, -⟩ := fromKeystore_ok h
    exact cacheOk_none rfl
  · intro entropy k h
    exact cacheOk_none (fromBytes_ok_shape h).2.2.1
  · intro k0 i k h
    rcases hcc : k0.chainCode with _ | cc
    · rw [derive_no_chainCode i hcc] at h
      cases h
    · rw [derive_some_chainCode i hcc] at h
      rw [← Except.ok.inj h]
      exact cacheOk_none rfl
  · intro s k h hne
    rcases fromString_ok h with ⟨bs, k0, hlen, hdec, h0, rfl⟩ | ⟨bs, k0, h96, hp, hdec, h0, rfl⟩
    · have h64 : strLen s = 64 := by
        rcases hlen with h1 | h1
        · exact h1
        · exact absurd h1 hne
      have hblen : s.data.length = 2 * bs.length := decodeHexChars_length _ bs hdec
      have h64l : s.data.length = 64 := h64
      have hb32 : bs.length = 32 := by omega
      have htb : k0.toBytes = bs := fromBytes_toBytes_32 hb32 h0
      have hdec2 : decodeHex s = some (k0.keyData.take 32) := by
        rw [hdec, ← htb]
        rfl
      show cacheOk { k0 with asStringRaw := some s } = true
      simp [cacheOk, h64, hdec2]
    · have hblen : (s.data.drop 32).length = 2 * bs.length := decodeHexChars_length _ bs hdec
      have h96l : s.data.length = 96 := h96
      have hb32 : bs.length = 32 := by
        rw [List.length_drop, h96l] at hblen
        omega
      have h64 : strLen (sliceFrom s 32) = 64 := by
        show (s.data.drop 32).length = 64
        rw [List.length_drop, h96l]
      have htb : k0.toBytes = bs := fromBytes_toBytes_32 hb32 h0
      have hdec2 : decodeHex (sliceFrom s 32) = some (k0.keyData.take 32) := by
        rw [hdec, ← htb]
        rfl
      show cacheOk { k0 with asStringRaw := some (sliceFrom s 32) } = true
      simp [cacheOk, h64, hdec2]

/-- Witness for the amended C3 at a concrete key. -/
theorem C3_witness :
    (Ed25519PrivateKey.fromBytes dummyPrims witKey.toBytes).map Ed25519PrivateKey.toBytes =
        .ok witKey.toBytes ∧
      (Ed25519PrivateKey.fromString dummyPrims ((witKey.toString false).1)).map
          Ed25519PrivateKey.toBytes = .ok witKey.toBytes :=
  ⟨(C3_roundTrip_amended dummyPrims).1 witKey (by decide),
    (C3_roundTrip_amended dummyPrims).2.1 witKey (by decide) (by decide)⟩

set_option maxRecDepth 8192 in
/-- C4 counterexample: `toString(true)` is the cached post-prefix-stripping
input string, not always the lowercase 64-character hexadecimal of the seed —
a key built by `fromString` from an uppercase 64-character string returns
that uppercase string (while the lowercase hexadecimal of its seed differs),
and a key built from a 128-character string returns all 128 characters. -/
theorem C4_counterexample :
    ((Ed25519PrivateKey.fromString dummyPrims hexUpper64).map
        fun k => (k.toString true).1) = .ok hexUpper64 ∧
      ((Ed25519PrivateKey.fromString dummyPrims hexUpper64).map
        fun k => encodeHex k.toBytes) = .ok hexLower64 ∧
      hexUpper64 ≠ hexLower64 ∧
      ((Ed25519PrivateKey.fromString dummyPrims hex128).map
        fun k => strLen (k.toString true).1) = .ok 128 :=
  ⟨rfl, rfl, by decide, rfl⟩

/-- C4 (amended): for every key constructed without a cached string form
(`fromBytes`, `fromMnemonic`, `fromKeystore`, `generate`, `derive`),
`toString(true)` is the lowercase 64-character hexadecimal encoding of
exactly the key's 32-byte seed and `toString(false)` prepends the fixed
32-character algorithm-identifier constant to it; keys built by `fromString`
instead return their original input string after prefix stripping, preserving
its casing and length. -/
theorem C4_toString_amended (P : CryptoPrims) :
    (∀ k : Ed25519PrivateKey, goodKey k = true → k.asStringRaw = none →
      (k.toString true).1 = encodeHex k.toBytes ∧
        strLen (k.toString true).1 = 64 ∧
        (∀ c ∈ ((k.toString true).1).data, isLowerHexChar c = true) ∧
        (k.toString false).1 = ed25519PrivKeyPfx ++ encodeHex k.toBytes) ∧
    (∀ bytes k, Ed25519PrivateKey.fromBytes P bytes = .ok k → k.asStringRaw = none) ∧
    (∀ m p k, Ed25519PrivateKey.fromMnemonic P m p = .ok k → k.asStringRaw = none) ∧
    (∀ blob p k, Ed25519PrivateKey.fromKeystore P blob p = .ok k → k.asStringRaw = none) ∧
    (∀ entropy k, Ed25519PrivateKey.generate P entropy = .ok k → k.asStringRaw = none) ∧
    (∀ k0 i k, Ed25519PrivateKey.derive P k0 i = .ok k → k.asStringRaw = none) ∧
    (∀ s k, Ed25519PrivateKey.fromString P s = .ok k → (strLen s = 64 ∨ strLen s = 128) →
      (k.toString true).1 = s) ∧
    (∀ s k, Ed25519PrivateKey.fromString P s = .ok k → strLen s = 96 →
      (k.toString true).1 = sliceFrom s 32) := by
  refine ⟨?_, ?_, ?_, ?_, ?_, ?_, ?_, ?_⟩
  · intro k hg ha
    have hbyte : ∀ b ∈ k.keyData, b < 256 := (goodKey_iff.mp hg).2
    have hlen : k.keyData.length = 64 := (goodKey_iff.mp hg).1
    obtain ⟨kd, pk, a, cc⟩ := k
    have hlen2 : kd.length = 64 := hlen
    have ha2 : a = none := ha
    subst ha2
    have heq : (Ed25519PrivateKey.toString ⟨kd, pk, none, cc⟩ true).1 =
        encodeHex (kd.take 32) := by
      show "" ++ encodeHex (kd.take 32) = encodeHex (kd.take 32)
      exact empty_append_str _
    refine ⟨heq, ?_, ?_, rfl⟩
    · rw [heq, strLen_encodeHex]
      have h32 : (kd.take 32).length = 32 := by
        simp [List.length_take]
        omega
      omega
    · intro c hc
      rw [heq] at hc
      exact encodeHexChars_lower _ (fun b hb => hbyte b (List.take_subset _ _ hb)) c hc
  · intro bytes k h
    exact (fromBytes_ok_shape h).2.2.1
  · intro m p k h
    rw [fromMnemonic_shape P m p] at h
    rw [← Except.ok.inj h]
  · intro blob p k h
    obtain ⟨-, rfl, -⟩ := fromKeystore_ok h
    rfl
  · intro entropy k h
    exact (fromBytes_ok_shape h).2.2.1
  · intro k0 i k h
    rcases hcc : k0.chainCode with _ | cc
    · rw [derive_no_chainCode i hcc] at h
      cases h
    · rw [derive_some_chainCode i hcc] at h
      rw [← Except.ok.inj h]
  · intro s k h hlen
    rcases fromString_ok h with ⟨bs, k0, -, -, -, rfl⟩ | ⟨bs, k0, h96, -, -, -, rfl⟩
    · show "" ++ s = s
      exact empty_append_str s
    · rcases hlen with h1 | h1 <;> omega
  · intro s k h h96
    rcases fromString_ok h with ⟨bs, k0, hlen, -, -, rfl⟩ | ⟨bs, k0, -, -, -, -, rfl⟩
    · rcases hlen with h1 | h1 <;> omega
    · show "" ++ sliceFrom s 32 = sliceFrom s 32
      exact empty_append_str _

/-- Witness for the amended C4 at a concrete key. -/
theorem C4_witness :
    (witKey.toString true).1 = encodeHex witKey.toBytes ∧
      strLen (witKey.toString true).1 = 64 :=
  (fun h => ⟨h.1, h.2.1⟩)
    ((C4_toString_amended dummyPrims).1 witKey (by decide) rfl)

end HederaEd25519
